import Mathlib

/-!
Verification of the `contributron` program (`src/main.rs`).

The program turns a grayscale image (7 pixels tall) into a synthetic git
commit history whose contribution-calendar rendering shows the image.

Shallow embedding conventions:
* A `NaiveDate` is embedded as an `Int`: the number of days since the Unix
  epoch 1970-01-01 (which was a Thursday, hence 4 days after a Sunday).
* A Rust `[u8; 7]` column is embedded as `Fin 7 → Nat` (byte bounds are
  irrelevant to the verified claims: the values are only compared and counted).
* The git repository is embedded as the list of created commits (in creation
  order, a commit's parent being an index into that list) together with the
  current tip of the target reference, exactly the state `draw_pixel` reads
  and writes through `git2`.
* Filesystem and image decoding are embedded as explicit state / data
  (`FS`, `DynImage`): the branching in `main` on those values is translated
  from the source, the external crates (`std::fs`, `image`, `git2`) supply
  only the data model.
* A Rust `panic!` / failed `assert!` aborts the process; it is embedded as
  an error value of type `RunError`, classified by the taxonomy of the
  specification (InvalidInput / InternalError / RepositoryError).
-/

namespace Contributron

/-- `const DAYS: u16 = 7 * 53;` -/
def DAYS : Nat := 7 * 53

/-- One image column: a Rust `[u8; 7]`, 7 intensities top-to-bottom. -/
def Col : Type := Fin 7 → Nat

/-- The all-zero column `[0; 7]` inserted after each pass of the tiler. -/
def zeroCol : Col := fun _ => 0

/-- The 7 bytes of a column, rows top-to-bottom (iteration order of `[u8; 7]`). -/
def colBytes (c : Col) : List Nat :=
  [c 0, c 1, c 2, c 3, c 4, c 5, c 6]

/-- One pass of the repeating pixel stream:
`columns.iter().chain(iter::once(&[0; 7]))`, flattened. -/
def pass (columns : List Col) : List Nat :=
  ((columns ++ [zeroCol]).map colBytes).flatten

/-- The value the infinite stream
`iter::repeat_with(|| columns.iter().chain(iter::once(&[0; 7]))).flatten().flatten().copied()`
yields on its `k`-th call to `next()` (0-based).  The stream is periodic with
period `(pass columns).length`. -/
def streamVal (columns : List Col) (k : Nat) : Nat :=
  (pass columns).getD (k % (pass columns).length) 0

/-- The `k`-th call to `next()` on the stream, `none` when the iterator is
exhausted (it never is: each pass contains at least the zero column). -/
def streamNext (columns : List Col) (k : Nat) : Option Nat :=
  (pass columns)[k % (pass columns).length]?

/-- Error taxonomy of the specification; in the source every failure is a
`panic!`/`assert!` that aborts the run with a diagnostic. -/
inductive RunError where
  | invalidInput (msg : String)
  | internalError (msg : String)
  | repositoryError (msg : String)
deriving DecidableEq, Repr

/-- A created git commit, as `draw_pixel` constructs it: author/committer
timestamp (`seconds` since the Unix epoch, `tzOffset` the `git2::Time` offset
in minutes), the message numbers of `"#{i+1}/{pixel}"`, and the sole parent
(an index into the creation-ordered commit list, `none` for a root). -/
structure Commit where
  date : Int
  seconds : Int
  tzOffset : Int
  msgIdx : Nat
  msgTotal : Nat
  parent : Option Nat
deriving DecidableEq, Repr

/-- The commit message `format!("#{}/{pixel}", i + 1)`. -/
def commitMessage (c : Commit) : String :=
  "#" ++ toString c.msgIdx ++ "/" ++ toString c.msgTotal

/-- The git repository state `draw_pixel` manipulates: the commits created so
far (in creation order) and the commit the target reference points at
(`none` while the reference peels to no commit, as in a fresh repository). -/
structure GitState where
  commits : List Commit
  tip : Option Nat
deriving DecidableEq, Repr

/-- The fresh repository right after `git2::Repository::init`: no commits,
the reference peels to no commit. -/
def freshRepo : GitState := ⟨[], none⟩

/-- Seconds since the Unix epoch of midday (12:00:00) UTC on day `d`
(days since the epoch): `date.and_time(12:00:00).and_utc()` then
`signed_duration_since(DateTime::UNIX_EPOCH).num_seconds()`. -/
def secondsSinceEpoch (d : Int) : Int :=
  d * 86400 + 12 * 3600

/-- The commit the `i`-th iteration of `draw_pixel`'s loop creates: message
`"#{i+1}/{pixel}"`, midday timestamp of `date` with offset 0, parent the
current tip. -/
def commitFor (pixel : Nat) (date : Int) (tip : Option Nat) (i : Nat) : Commit :=
  { date := date
    seconds := secondsSinceEpoch date
    tzOffset := 0
    msgIdx := i + 1
    msgTotal := pixel
    parent := tip }

/-- One iteration of `draw_pixel`'s loop: `repo.commit(Some(reference), ..)`
appends a commit whose parent is the current tip and advances the reference
to it (the new commit's index is the length of the commit list so far). -/
def drawPixelStep (pixel : Nat) (date : Int) (s : GitState) (i : Nat) :
    GitState :=
  { commits := s.commits ++ [commitFor pixel date s.tip i]
    tip := some s.commits.length }

/-- `draw_pixel`: read the reference tip once, then create `pixel` commits on
`date`, each the sole child of the previous one, advancing the reference
and the local `parent` after each.  `parent` and the reference tip coincide
throughout the loop, so the step reads `s.tip` each iteration. -/
def drawPixel (st : GitState) (pixel : Nat) (date : Int) : GitState :=
  (List.range pixel).foldl (drawPixelStep pixel date) st

/-- Number of iterations of `while date <= end_date` starting at `start`. -/
def numDays (start endD : Int) : Nat :=
  (endD + 1 - start).toNat

/-- `draw_repeating_pattern`: walk the inclusive date range, drawing one
stream value per day; `.expect("ran out of pixels")` is the only failure. -/
def drawRepeatingPattern (st : GitState) (columns : List Col)
    (start endD : Int) : Except RunError GitState :=
  (List.range (numDays start endD)).foldlM
    (fun s i =>
      match streamNext columns i with
      | some pixel => Except.ok (drawPixel s pixel (start + i))
      | none => Except.error (RunError.internalError
          "ran out of pixels (should repeat endlessly)"))
    st

/-- The same walk, total (the stream never runs out). -/
def goTotal (st : GitState) (columns : List Col) (start : Int) (n : Nat) :
    GitState :=
  (List.range n).foldl
    (fun s i => drawPixel s (streamVal columns i) (start + i))
    st

/-- `exact.weekday().num_days_from_sunday()` for the date `d` days since
1970-01-01, a Thursday (4 days after a Sunday). -/
def daysFromSunday (d : Int) : Int :=
  (d + 4) % 7

/-- `let date = exact - days_since_sunday`: the most recent Sunday on or
before `now` (taking `now` at date granularity). -/
def endDate (now : Int) : Int :=
  now - daysFromSunday now

/-- `let a_year_ago = date - Days::new(DAYS)`. -/
def startDate (now : Int) : Int :=
  endDate now - (DAYS : Int)

/-- The whole drawing run of `main` after decoding, starting from the fresh
repository over the computed date range. -/
def mainRun (now : Int) (columns : List Col) : Except RunError GitState :=
  drawRepeatingPattern freshRepo columns (startDate now) (endDate now)

/-- The final repository state of the run (the run never fails; see
`mainRun_eq_ok`). -/
def runState (now : Int) (columns : List Col) : GitState :=
  goTotal freshRepo columns (startDate now) (numDays (startDate now) (endDate now))

/-- Number of commits of the state that carry calendar date `d`. -/
def commitsOn (st : GitState) (d : Int) : Nat :=
  (st.commits.filter (fun c => c.date = d)).length

/-- The parent pointer stored at index `i` of the commit list. -/
def parentAt (commits : List Commit) (i : Nat) : Option Nat :=
  match commits[i]? with
  | some c => c.parent
  | none => none

/-- Follow parent links starting from `cur`, collecting the visited indices
(`fuel` bounds the walk; `fuel = commits.length` suffices for a linear
history). -/
def walk (commits : List Commit) : Nat → Option Nat → List Nat
  | 0, _ => []
  | _ + 1, none => []
  | fuel + 1, some i => i :: walk commits fuel (parentAt commits i)

/-- Strict linearity of the history: commit `i`'s sole parent is commit
`i - 1` (none for the root), and the reference points at the last commit. -/
def chainLinear (st : GitState) : Prop :=
  (∀ i (hi : i < st.commits.length),
    (st.commits.get ⟨i, hi⟩).parent = if i = 0 then none else some (i - 1)) ∧
  st.tip = (if st.commits.length = 0 then none else some (st.commits.length - 1))

/-- `Except.error (RunError.invalidInput _)`, the failure class of §7 for
bad user input. -/
def isInvalidInput {α : Type} (e : Except RunError α) : Prop :=
  ∃ msg, e = Except.error (RunError.invalidInput msg)

/-- The decoded image as the `image` crate presents it to `main`:
dimensions, whether the color model has chrominance (`ColorType::has_color`,
`false` for `L8`/`L16`/`La8`/`La16`), whether it has an alpha channel
(`ColorType::has_alpha`), and per-pixel luma (`to_luma()`) and alpha data.
`main` only ever reads `width`, `height`, `hasColor` and the luma values. -/
structure DynImage where
  width : Nat
  height : Nat
  hasColor : Bool
  hasAlpha : Bool
  luma : Nat → Nat → Nat
  alpha : Nat → Nat → Nat

/-- The columns `main` builds from a decoded image: one per `x` in
`0..width`, each entry `metadata.get_pixel(x, y).to_luma().0` for `y` in
`0..7` (the luma value alone; alpha data never enters). -/
def decodedCols (m : DynImage) : List Col :=
  (List.range m.width).map (fun x => fun y : Fin 7 => m.luma x y.val)

/-- The image-decoding step of `main`: `image::open` (`none` when the file
cannot be decoded), the `assert_eq!(height, 7)`, the
`assert!(!color.has_color())`, then the columns. -/
def decodeColumns (img : Option DynImage) : Except RunError (List Col) :=
  match img with
  | none => Except.error (RunError.invalidInput
      "could not open the file as an image")
  | some m =>
    if m.height ≠ 7 then
      Except.error (RunError.invalidInput
        "expected the image to be seven pixels tall")
    else if m.hasColor then
      Except.error (RunError.invalidInput
        "expected the image to be grayscale")
    else
      Except.ok (decodedCols m)

/-- Decode the image, then draw it over the computed date range (the
image-dependent part of `main`). -/
def fullRun (now : Int) (img : Option DynImage) : Except RunError GitState :=
  match decodeColumns img with
  | Except.error e => Except.error e
  | Except.ok columns => mainRun now columns

/-- The filesystem as `main` sees it: the set of existing directories, and
the set of paths at which a git repository has been initialized. -/
structure FS where
  dirs : List String
  repos : List String
deriving DecidableEq, Repr

/-- `fs::create_dir_all`: succeeds whether or not the path exists. -/
def createDirAll (fs : FS) (p : String) : FS :=
  if p ∈ fs.dirs then fs else { fs with dirs := p :: fs.dirs }

/-- Outcome of the directory/repository setup in `main`: the filesystem
afterwards and the error the process aborted with, if any. -/
structure SetupResult where
  fs : FS
  err : Option RunError

/-- `if let Some(parent) = repo.parent() { fs::create_dir_all(parent) }`. -/
def dirSetup (fs : FS) (parent : Option String) : FS :=
  match parent with
  | some p => createDirAll fs p
  | none => fs

/-- The setup phase of `main`: `fs::create_dir_all` on the parent (when
there is one), then `fs::create_dir(&repo)` — which fails when the path
already exists — then `git2::Repository::init` in the freshly created
directory. -/
def setupRepo (fs : FS) (parent : Option String) (repoPath : String) :
    SetupResult :=
  if repoPath ∈ (dirSetup fs parent).dirs then
    { fs := dirSetup fs parent
      err := some (RunError.invalidInput
        "could not create the repository directory: it already exists") }
  else
    { fs := { dirs := repoPath :: (dirSetup fs parent).dirs
              repos := repoPath :: (dirSetup fs parent).repos }
      err := none }

/-! ### Concrete inputs used by witnesses -/

/-- The 1×7 test image column `[1, 0, 0, 0, 0, 0, 0]`. -/
def colC6 : Col := fun j => if j.val = 0 then 1 else 0

/-- A concrete first column for stream tests. -/
def colA : Col := fun j => j.val + 10

/-- A concrete second column for stream tests. -/
def colB : Col := fun j => j.val + 20

/-- A concrete 3×7 grayscale image. -/
def imgW : DynImage :=
  { width := 3, height := 7, hasColor := false, hasAlpha := false
    luma := fun x y => 10 * x + y, alpha := fun _ _ => 0 }

/-- A concrete image of the wrong height (3×5). -/
def imgBad : DynImage :=
  { width := 3, height := 5, hasColor := false, hasAlpha := false
    luma := fun x y => x + y, alpha := fun _ _ => 0 }

/-- The first commit the run on `colC6` creates (computed from the model):
dated at the range start for `now = 0`, message `"#1/1"`, parentless. -/
def c6FirstCommit : Commit :=
  { date := -375, seconds := -375 * 86400 + 43200, tzOffset := 0
    msgIdx := 1, msgTotal := 1, parent := none }

/-- A concrete filesystem in which the output directory already exists. -/
def fs0 : FS := { dirs := ["outdir"], repos := [] }

/-! ### Stream lemmas -/

theorem pass_cons (c : Col) (cs : List Col) :
    pass (c :: cs) = colBytes c ++ pass cs := by
  simp [pass]

theorem pass_nil : pass [] = colBytes zeroCol := by
  simp [pass]

theorem length_colBytes (c : Col) : (colBytes c).length = 7 := rfl

theorem length_pass (columns : List Col) :
    (pass columns).length = 7 * (columns.length + 1) := by
  induction columns with
  | nil => rfl
  | cons c cs ih =>
    rw [pass_cons, List.length_append, length_colBytes, ih]
    simp [List.length_cons]
    ring

theorem length_pass_pos (columns : List Col) : 0 < (pass columns).length := by
  rw [length_pass]; positivity

theorem getD_colBytes (c : Col) (j : Fin 7) :
    (colBytes c).getD j.val 0 = c j := by
  fin_cases j <;> rfl

theorem getD_pass_col (columns : List Col) (i : Nat) (hi : i < columns.length)
    (j : Fin 7) :
    (pass columns).getD (7 * i + j.val) 0 = columns.get ⟨i, hi⟩ j := by
  induction columns generalizing i with
  | nil => exact absurd hi (Nat.not_lt_zero i)
  | cons c cs ih =>
    rw [pass_cons]
    cases i with
    | zero =>
      rw [Nat.mul_zero, Nat.zero_add,
        List.getD_append _ _ _ _ (by rw [length_colBytes]; exact j.isLt)]
      exact getD_colBytes c j
    | succ i =>
      have h7 : (colBytes c).length ≤ 7 * (i + 1) + j.val := by
        rw [length_colBytes]; omega
      rw [List.getD_append_right _ _ _ _ h7]
      have : 7 * (i + 1) + j.val - (colBytes c).length = 7 * i + j.val := by
        rw [length_colBytes]; omega
      rw [this]
      exact ih i (by simpa using hi)

theorem getD_pass_zero (columns : List Col) (j : Fin 7) :
    (pass columns).getD (7 * columns.length + j.val) 0 = 0 := by
  induction columns with
  | nil =>
    rw [pass_nil]
    simpa using getD_colBytes zeroCol j
  | cons c cs ih =>
    rw [pass_cons]
    have h7 : (colBytes c).length ≤ 7 * (c :: cs).length + j.val := by
      rw [length_colBytes, List.length_cons]; omega
    rw [List.getD_append_right _ _ _ _ h7]
    have : 7 * (c :: cs).length + j.val - (colBytes c).length
        = 7 * cs.length + j.val := by
      rw [length_colBytes, List.length_cons]; omega
    rw [this]
    exact ih

theorem streamNext_eq_some (columns : List Col) (k : Nat) :
    streamNext columns k = some (streamVal columns k) := by
  have hlt : k % (pass columns).length < (pass columns).length :=
    Nat.mod_lt k (length_pass_pos columns)
  rw [streamNext, streamVal, List.getElem?_eq_getElem hlt,
    List.getD_eq_getElem _ _ hlt]

/-- For `k` within a single pass, `streamVal` reads the pass directly. -/
theorem streamVal_of_lt (columns : List Col) (k : Nat)
    (hk : k < (pass columns).length) :
    streamVal columns k = (pass columns).getD k 0 := by
  rw [streamVal, Nat.mod_eq_of_lt hk]

/-- The stream is periodic with period `7 * (n + 1)`. -/
theorem streamVal_period (columns : List Col) (k : Nat) :
    streamVal columns (k + 7 * (columns.length + 1)) = streamVal columns k := by
  rw [streamVal, streamVal, ← length_pass, Nat.add_mod_right]

/-! ### The run never fails: the iterator is genuinely infinite -/

theorem foldlM_stream_ok (columns : List Col) (start : Int) (l : List Nat)
    (st : GitState) :
    (l.foldlM
      (fun s i =>
        match streamNext columns i with
        | some pixel => Except.ok (drawPixel s pixel (start + i))
        | none => Except.error (RunError.internalError
            "ran out of pixels (should repeat endlessly)"))
      st)
    = Except.ok (l.foldl
        (fun s i => drawPixel s (streamVal columns i) (start + i)) st) := by
  induction l generalizing st with
  | nil => rfl
  | cons a l ih =>
    rw [List.foldlM_cons, streamNext_eq_some, List.foldl_cons]
    exact ih _

theorem drawRepeatingPattern_eq_ok (st : GitState) (columns : List Col)
    (start endD : Int) :
    drawRepeatingPattern st columns start endD
      = Except.ok (goTotal st columns start (numDays start endD)) := by
  exact foldlM_stream_ok columns start _ st

theorem mainRun_eq_ok (now : Int) (columns : List Col) :
    mainRun now columns = Except.ok (runState now columns) :=
  drawRepeatingPattern_eq_ok _ _ _ _

/-! ### Counting commits -/

theorem length_foldl_step (t : Nat) (d : Int) (l : List Nat) (st : GitState) :
    ((l.foldl (drawPixelStep t d) st).commits).length
      = st.commits.length + l.length := by
  induction l generalizing st with
  | nil => simp
  | cons a l ih =>
    rw [List.foldl_cons, ih]
    simp [drawPixelStep]
    omega

theorem length_drawPixel (st : GitState) (pixel : Nat) (d : Int) :
    (drawPixel st pixel d).commits.length = st.commits.length + pixel := by
  rw [drawPixel, length_foldl_step, List.length_range]

theorem commitsOn_foldl_step (t : Nat) (d : Int) (l : List Nat)
    (st : GitState) (dd : Int) :
    commitsOn (l.foldl (drawPixelStep t d) st) dd
      = commitsOn st dd + (if dd = d then l.length else 0) := by
  induction l generalizing st with
  | nil => simp
  | cons a l ih =>
    rw [List.foldl_cons, ih]
    have hstep : commitsOn (drawPixelStep t d st a) dd
        = commitsOn st dd + (if dd = d then 1 else 0) := by
      rcases eq_or_ne dd d with h | h
      · subst h
        simp [commitsOn, drawPixelStep, commitFor]
      · simp [commitsOn, drawPixelStep, commitFor, h, Ne.symm h]
    rw [hstep]
    by_cases h : dd = d <;> simp [h] <;> omega

theorem commitsOn_drawPixel (st : GitState) (pixel : Nat) (d dd : Int) :
    commitsOn (drawPixel st pixel d) dd
      = commitsOn st dd + (if dd = d then pixel else 0) := by
  rw [drawPixel, commitsOn_foldl_step, List.length_range]

theorem mem_foldl_step (t : Nat) (d : Int) (l : List Nat) (st : GitState)
    (c : Commit) (hc : c ∈ (l.foldl (drawPixelStep t d) st).commits) :
    c ∈ st.commits ∨ ∃ i ∈ l, ∃ p, c = commitFor t d p i := by
  induction l generalizing st with
  | nil => exact Or.inl hc
  | cons a l ih =>
    rw [List.foldl_cons] at hc
    rcases ih _ hc with h | ⟨i, hi, p, hp⟩
    · simp only [drawPixelStep, List.mem_append, List.mem_singleton] at h
      rcases h with h | h
      · exact Or.inl h
      · exact Or.inr ⟨a, List.mem_cons_self a l, st.tip, h⟩
    · exact Or.inr ⟨i, List.mem_cons_of_mem a hi, p, hp⟩

theorem mem_drawPixel (st : GitState) (pixel : Nat) (d : Int) (c : Commit)
    (hc : c ∈ (drawPixel st pixel d).commits) :
    c ∈ st.commits ∨
      (c.date = d ∧ c.seconds = secondsSinceEpoch d ∧ c.tzOffset = 0 ∧
        1 ≤ c.msgIdx ∧ c.msgIdx ≤ pixel ∧ c.msgTotal = pixel) := by
  rcases mem_foldl_step pixel d _ st c hc with h | ⟨i, hi, p, hp⟩
  · exact Or.inl h
  · right
    rw [List.mem_range] at hi
    subst hp
    refine ⟨rfl, rfl, rfl, ?_, ?_, rfl⟩ <;> simp [commitFor] <;> omega

/-! ### Walking the date range -/

theorem goTotal_zero (st : GitState) (columns : List Col) (start : Int) :
    goTotal st columns start 0 = st := rfl

theorem goTotal_succ (st : GitState) (columns : List Col) (start : Int)
    (n : Nat) :
    goTotal st columns start (n + 1)
      = drawPixel (goTotal st columns start n) (streamVal columns n)
          (start + n) := by
  rw [goTotal, goTotal, List.range_succ, List.foldl_append, List.foldl_cons,
    List.foldl_nil]

theorem length_goTotal (st : GitState) (columns : List Col) (start : Int)
    (n : Nat) :
    (goTotal st columns start n).commits.length
      = st.commits.length + ∑ i ∈ Finset.range n, streamVal columns i := by
  induction n with
  | zero => simp [goTotal_zero]
  | succ n ih =>
    rw [goTotal_succ, length_drawPixel, ih, Finset.sum_range_succ]
    omega

theorem commitsOn_goTotal (st : GitState) (columns : List Col) (start : Int)
    (n : Nat) (dd : Int) :
    commitsOn (goTotal st columns start n) dd
      = commitsOn st dd
        + ∑ i ∈ Finset.range n,
            (if dd = start + i then streamVal columns i else 0) := by
  induction n with
  | zero => simp [goTotal_zero]
  | succ n ih =>
    rw [goTotal_succ, commitsOn_drawPixel, ih, Finset.sum_range_succ]
    omega

theorem mem_goTotal (st : GitState) (columns : List Col) (start : Int)
    (n : Nat) (c : Commit) (hc : c ∈ (goTotal st columns start n).commits) :
    c ∈ st.commits ∨
      ∃ i, i < n ∧ c.date = start + i ∧
        c.seconds = secondsSinceEpoch (start + i) ∧ c.tzOffset = 0 ∧
        1 ≤ c.msgIdx ∧ c.msgIdx ≤ streamVal columns i ∧
        c.msgTotal = streamVal columns i := by
  induction n with
  | zero => exact Or.inl hc
  | succ n ih =>
    rw [goTotal_succ] at hc
    rcases mem_drawPixel _ _ _ _ hc with h | h
    · rcases ih h with h2 | ⟨i, hi, hrest⟩
      · exact Or.inl h2
      · exact Or.inr ⟨i, Nat.lt_succ_of_lt hi, hrest⟩
    · exact Or.inr ⟨n, Nat.lt_succ_self n, h⟩

/-! ### Strict linearity of the chain -/

theorem chainLinear_fresh : chainLinear freshRepo := by
  constructor
  · intro i hi
    simp [freshRepo] at hi
  · rfl

theorem chainLinear_step (t : Nat) (d : Int) (s : GitState) (i : Nat)
    (h : chainLinear s) : chainLinear (drawPixelStep t d s i) := by
  obtain ⟨hpar, htip⟩ := h
  have hlen : (drawPixelStep t d s i).commits.length = s.commits.length + 1 := by
    simp [drawPixelStep]
  constructor
  · intro j hj
    have hj2 : j < s.commits.length + 1 := by rw [← hlen]; exact hj
    rw [List.get_eq_getElem]
    simp only [drawPixelStep]
    rcases Nat.lt_or_ge j s.commits.length with hlt | hge
    · rw [List.getElem_append_left hlt]
      have := hpar j hlt
      rw [List.get_eq_getElem] at this
      exact this
    · have hj' : j = s.commits.length := by omega
      subst hj'
      rw [List.getElem_concat_length s.commits _ _ rfl]
      simp only [commitFor]
      rw [htip]
  · simp only [drawPixelStep, hlen]
    simp

theorem chainLinear_foldl_step (t : Nat) (d : Int) (l : List Nat)
    (s : GitState) (h : chainLinear s) :
    chainLinear (l.foldl (drawPixelStep t d) s) := by
  induction l generalizing s with
  | nil => exact h
  | cons a l ih =>
    rw [List.foldl_cons]
    exact ih _ (chainLinear_step t d s a h)

theorem chainLinear_drawPixel (s : GitState) (pixel : Nat) (d : Int)
    (h : chainLinear s) : chainLinear (drawPixel s pixel d) :=
  chainLinear_foldl_step pixel d _ s h

theorem chainLinear_goTotal (st : GitState) (columns : List Col)
    (start : Int) (n : Nat) (h : chainLinear st) :
    chainLinear (goTotal st columns start n) := by
  induction n with
  | zero => exact h
  | succ n ih => rw [goTotal_succ]; exact chainLinear_drawPixel _ _ _ ih

/-- Following parent links through a linear history of length `n`, starting
at the last commit, visits exactly the indices `n-1, n-2, …, 0`. -/
theorem walk_of_linear (commits : List Commit)
    (hpar : ∀ i (hi : i < commits.length),
      (commits.get ⟨i, hi⟩).parent = if i = 0 then none else some (i - 1)) :
    ∀ k, k ≤ commits.length →
      walk commits k (if k = 0 then none else some (k - 1))
        = (List.range k).reverse := by
  intro k
  induction k with
  | zero => intro _; rfl
  | succ k ih =>
    intro hk
    have hk1 : k < commits.length := by omega
    have hsucc : k + 1 ≠ 0 := Nat.succ_ne_zero k
    simp only [hsucc, if_false, Nat.add_sub_cancel]
    have hget : parentAt commits k = if k = 0 then none else some (k - 1) := by
      rw [parentAt, List.getElem?_eq_getElem hk1]
      exact hpar k hk1
    rw [walk, hget, ih (by omega), List.range_succ, List.reverse_append]
    rfl

/-! ### The calendar aligner -/

theorem numDays_span (now : Int) :
    numDays (startDate now) (endDate now) = 372 := by
  simp only [numDays, startDate, endDate, DAYS]
  omega

theorem endDate_weekday (now : Int) : daysFromSunday (endDate now) = 0 := by
  simp only [daysFromSunday, endDate]
  omega

theorem startDate_weekday (now : Int) : daysFromSunday (startDate now) = 0 := by
  simp only [daysFromSunday, startDate, endDate, DAYS]
  omega

/-! ### The run, assembled -/

theorem length_runState (now : Int) (columns : List Col) :
    (runState now columns).commits.length
      = ∑ i ∈ Finset.range (numDays (startDate now) (endDate now)),
          streamVal columns i := by
  rw [runState, length_goTotal]
  simp [freshRepo]

theorem commitsOn_runState (now : Int) (columns : List Col) (i : Nat)
    (hi : i < numDays (startDate now) (endDate now)) :
    commitsOn (runState now columns) (startDate now + i) = streamVal columns i := by
  rw [runState, commitsOn_goTotal]
  have h0 : commitsOn freshRepo (startDate now + (i : Int)) = 0 := rfl
  rw [h0, Nat.zero_add]
  simp only [add_right_inj, Nat.cast_inj]
  rw [Finset.sum_ite_eq]
  simp [Finset.mem_range, hi]

/-! ### Special columns -/

theorem streamVal_nil (k : Nat) : streamVal [] k = 0 := by
  have h7 : k % (pass []).length < 7 := by
    have : (pass []).length = 7 := rfl
    rw [this]
    exact Nat.mod_lt _ (by norm_num)
  rw [streamVal]
  revert h7
  generalize k % (pass []).length = r
  intro h7
  interval_cases r <;> rfl

theorem goTotal_nil_cols (st : GitState) (start : Int) (n : Nat) :
    goTotal st [] start n = st := by
  induction n with
  | zero => rfl
  | succ n ih =>
    rw [goTotal_succ, ih, streamVal_nil]
    rfl

theorem streamVal_colC6 (i : Nat) :
    streamVal [colC6] i = if i % 14 = 0 then 1 else 0 := by
  have hlen : (pass [colC6]).length = 14 := rfl
  have h14 : i % 14 < 14 := Nat.mod_lt _ (by norm_num)
  have hall : ∀ r, r < 14 →
      (pass [colC6]).getD r 0 = (if r = 0 then 1 else 0) := by decide
  rw [streamVal, hlen, hall _ h14]

theorem commitMessage_one (c : Commit) (h1 : c.msgIdx = 1)
    (h2 : c.msgTotal = 1) : commitMessage c = "#1/1" := by
  rw [commitMessage, h1, h2]
  rfl

/-! ### Image decoding and the filesystem -/

theorem length_decodedCols (m : DynImage) :
    (decodedCols m).length = m.width := by
  simp [decodedCols]

theorem getD_decodedCols (m : DynImage) (x : Nat) (hx : x < m.width)
    (y : Fin 7) : ((decodedCols m).getD x zeroCol) y = m.luma x y.val := by
  rw [decodedCols, List.getD_eq_getElem _ _ (by simpa using hx)]
  simp

theorem repos_createDirAll (fs : FS) (p : String) :
    (createDirAll fs p).repos = fs.repos := by
  rw [createDirAll]
  split <;> rfl

theorem mem_dirs_createDirAll (fs : FS) (p q : String) (h : q ∈ fs.dirs) :
    q ∈ (createDirAll fs p).dirs := by
  rw [createDirAll]
  split
  · exact h
  · exact List.mem_cons_of_mem p h

/-! ## The claims -/

set_option maxRecDepth 1000000

/-- C1: for every valid image (non-empty column list), the total number of
commits created by the run equals the sum, over all days of the computed
date range, of the intensity the tiling (columns plus one zero column per
pass) assigns to that day; and each date of the range carries exactly the
number of commits of the intensity drawn for it. -/
theorem claim_c1_run_counts (now : Int) (columns : List Col)
    (hw : columns ≠ []) (st : GitState)
    (h : mainRun now columns = Except.ok st) :
    st.commits.length
      = ∑ i ∈ Finset.range (numDays (startDate now) (endDate now)),
          streamVal columns i ∧
    ∀ i, i < numDays (startDate now) (endDate now) →
      commitsOn st (startDate now + i) = streamVal columns i := by
  have hst : runState now columns = st :=
    Except.ok.inj ((mainRun_eq_ok now columns).symm.trans h)
  subst hst
  exact ⟨length_runState now columns, fun i hi => commitsOn_runState now columns i hi⟩

/-- Witness for C1 at `now = 0` and the single-column image `[1,0,0,0,0,0,0]`. -/
theorem claim_c1_run_counts_witness :
    (runState 0 [colC6]).commits.length
      = ∑ i ∈ Finset.range (numDays (startDate 0) (endDate 0)),
          streamVal [colC6] i ∧
    commitsOn (runState 0 [colC6]) (startDate 0 + ((0 : Nat) : Int))
      = streamVal [colC6] 0 :=
  ⟨(claim_c1_run_counts 0 [colC6] (List.cons_ne_nil _ _) _
      (mainRun_eq_ok 0 [colC6])).1,
   (claim_c1_run_counts 0 [colC6] (List.cons_ne_nil _ _) _
      (mainRun_eq_ok 0 [colC6])).2 0 (by decide)⟩

/-- C2 counterexample: at `now = 0` the computed inclusive range does not
span 371 days (it spans 372: `start = end - 371`), and the end date's
weekday is not the day before the week-start weekday (it is the week-start
weekday, Sunday, itself). -/
theorem claim_c2_counterexample :
    ¬ (numDays (startDate 0) (endDate 0) = 371 ∧
        startDate 0 = endDate 0 - 370 ∧
        daysFromSunday (endDate 0) = 6) := by
  decide

/-- C2 amended: for every `now`, the computed inclusive date range
`[start, end]` contains exactly 372 calendar days (`start = end - 371`
days), and `end` falls on the calendar's row-0 week-start weekday (Sunday)
itself, as does `start`. -/
theorem claim_c2_range_span (now : Int) :
    numDays (startDate now) (endDate now) = 372 ∧
    startDate now = endDate now - 371 ∧
    daysFromSunday (endDate now) = 0 ∧
    daysFromSunday (startDate now) = 0 :=
  ⟨numDays_span now, by norm_num [startDate, DAYS], endDate_weekday now,
    startDate_weekday now⟩

/-- C3: for every non-empty column sequence of `n` columns, one pass of the
intensity stream is exactly `7 * (n + 1)` bytes — the columns left-to-right,
rows top-to-bottom within a column, then seven zero bytes — and the stream
repeats with that period; in particular for a 2-column image positions
7..13 (days 8–14) hold the second column's values, positions 14..20 are the
seven zero separators, and position 21 restarts the first column. -/
theorem claim_c3_stream_shape (columns : List Col) (hw : columns ≠ []) :
    (pass columns).length = 7 * (columns.length + 1) ∧
    (∀ k, streamVal columns (k + 7 * (columns.length + 1))
        = streamVal columns k) ∧
    (∀ i (hi : i < columns.length) (j : Fin 7),
      streamVal columns (7 * i + j.val) = columns.get ⟨i, hi⟩ j) ∧
    (∀ j : Fin 7, streamVal columns (7 * columns.length + j.val) = 0) ∧
    (∀ c0 c1 : Col, ∀ j : Fin 7,
      streamVal [c0, c1] (7 + j.val) = c1 j ∧
      streamVal [c0, c1] (14 + j.val) = 0 ∧
      streamVal [c0, c1] (21 + j.val) = c0 j) := by
  refine ⟨length_pass columns, streamVal_period columns, ?_, ?_, ?_⟩
  · intro i hi j
    have hj := j.isLt
    have hlt : 7 * i + j.val < (pass columns).length := by
      rw [length_pass]
      omega
    rw [streamVal_of_lt _ _ hlt]
    exact getD_pass_col columns i hi j
  · intro j
    have hj := j.isLt
    have hlt : 7 * columns.length + j.val < (pass columns).length := by
      rw [length_pass]
      omega
    rw [streamVal_of_lt _ _ hlt]
    exact getD_pass_zero columns j
  · intro c0 c1 j
    have hj := j.isLt
    have hlen2 : ([c0, c1] : List Col).length = 2 := rfl
    refine ⟨?_, ?_, ?_⟩
    · have h1 : (7 : Nat) + j.val = 7 * 1 + j.val := by ring
      have hlt : 7 * 1 + j.val < (pass [c0, c1]).length := by
        rw [length_pass, hlen2]
        omega
      rw [h1, streamVal_of_lt _ _ hlt]
      exact getD_pass_col [c0, c1] 1 (by norm_num) j
    · have h2 : (14 : Nat) + j.val = 7 * ([c0, c1] : List Col).length + j.val := by
        rw [hlen2]
      have hlt : 7 * ([c0, c1] : List Col).length + j.val
          < (pass [c0, c1]).length := by
        rw [length_pass, hlen2]
        omega
      rw [h2, streamVal_of_lt _ _ hlt]
      exact getD_pass_zero [c0, c1] j
    · have h3 : (21 : Nat) + j.val
          = j.val + 7 * (([c0, c1] : List Col).length + 1) := by
        rw [hlen2]
        omega
      have hlt : j.val < (pass [c0, c1]).length := by
        rw [length_pass, hlen2]
        omega
      rw [h3, streamVal_period, streamVal_of_lt _ _ hlt]
      have h0 := getD_pass_col [c0, c1] 0 (by norm_num) j
      simpa using h0

/-- Witness for C3 on the two concrete columns `colA`, `colB`: the value for
day 9 (position 8 = 7 + 1) is the second column's row-1 entry. -/
theorem claim_c3_stream_shape_witness :
    streamVal [colA, colB] (7 + (1 : Fin 7).val) = colB 1 :=
  ((claim_c3_stream_shape [colA, colB]
      (List.cons_ne_nil _ _)).2.2.2.2 colA colB 1).1

/-- C4: every run's history is one strictly linear chain: commit `i`'s sole
parent is commit `i - 1` (the first commit is parentless because the fresh
repository's reference peels to no commit), the reference tip is the last
commit, and following parent links from the tip visits every created commit
exactly once, ending at the single parentless root. -/
theorem claim_c4_linear_chain (now : Int) (columns : List Col)
    (st : GitState) (h : mainRun now columns = Except.ok st) :
    (∀ i (hi : i < st.commits.length),
      (st.commits.get ⟨i, hi⟩).parent = if i = 0 then none else some (i - 1)) ∧
    st.tip = (if st.commits.length = 0 then none
      else some (st.commits.length - 1)) ∧
    walk st.commits st.commits.length st.tip
      = (List.range st.commits.length).reverse := by
  have hst : runState now columns = st :=
    Except.ok.inj ((mainRun_eq_ok now columns).symm.trans h)
  subst hst
  obtain ⟨hpar, htip⟩ :=
    chainLinear_goTotal freshRepo columns (startDate now)
      (numDays (startDate now) (endDate now)) chainLinear_fresh
  refine ⟨hpar, htip, ?_⟩
  simp only [runState]
  rw [htip]
  exact walk_of_linear _ hpar _ le_rfl

/-- Witness for C4 at `now = 0` on the image `[1,0,0,0,0,0,0]`: the parent
walk from the tip enumerates all 27 commits newest-to-oldest. -/
theorem claim_c4_linear_chain_witness :
    walk (runState 0 [colC6]).commits (runState 0 [colC6]).commits.length
        (runState 0 [colC6]).tip
      = (List.range (runState 0 [colC6]).commits.length).reverse :=
  (claim_c4_linear_chain 0 [colC6] _ (mainRun_eq_ok 0 [colC6])).2.2

/-- C5: every created commit's author/committer timestamp is midday
(12:00:00, i.e. 43200 seconds into the day) of its assigned calendar date,
with a fixed zero timezone offset: truncating the timestamp to date
granularity recovers the assigned date, and the time-of-day component is
the same for every commit. -/
theorem claim_c5_timestamps (now : Int) (columns : List Col)
    (st : GitState) (h : mainRun now columns = Except.ok st) :
    ∀ c ∈ st.commits,
      c.seconds = c.date * 86400 + 43200 ∧
      c.tzOffset = 0 ∧
      c.seconds / 86400 = c.date ∧
      c.seconds % 86400 = 43200 := by
  have hst : runState now columns = st :=
    Except.ok.inj ((mainRun_eq_ok now columns).symm.trans h)
  subst hst
  intro c hc
  rcases mem_goTotal _ _ _ _ c hc with h0 | ⟨i, _, hdate, hsec, htz, _⟩
  · simp [freshRepo] at h0
  · rw [hdate, hsec, secondsSinceEpoch]
    refine ⟨by ring, htz, by omega, by omega⟩

/-- Witness for C5 on the first commit of the `now = 0` run on
`[1,0,0,0,0,0,0]`. -/
theorem claim_c5_timestamps_witness :
    c6FirstCommit.seconds = c6FirstCommit.date * 86400 + 43200 ∧
    c6FirstCommit.tzOffset = 0 ∧
    c6FirstCommit.seconds / 86400 = c6FirstCommit.date ∧
    c6FirstCommit.seconds % 86400 = 43200 :=
  claim_c5_timestamps 0 [colC6] _ (mainRun_eq_ok 0 [colC6]) c6FirstCommit
    (by decide)

/-- C6 counterexample: at `now = 0`, the run on the 1×7 image
`[1,0,0,0,0,0,0]` creates 27 commits, not exactly one: the tiler repeats the
bright pixel every 14 days (one image column plus one zero column per pass)
across the 372-day range. -/
theorem claim_c6_counterexample :
    mainRun 0 [colC6] = Except.ok (runState 0 [colC6]) ∧
    (runState 0 [colC6]).commits.length = 27 ∧
    ¬ (runState 0 [colC6]).commits.length = 1 :=
  ⟨mainRun_eq_ok 0 [colC6], by decide, by decide⟩

/-- C6 amended: for a 1×7 input image `[1,0,0,0,0,0,0]`, the run creates
exactly 27 commits — one on each date `start + i` with `i % 14 = 0`, the
bright pixel recurring once per two-week pass over the 372-day range — each
with message `"#1/1"`; exactly one commit falls on the range's start date,
which is the calendar's row-0 week-start weekday. -/
theorem claim_c6_single_pixel (now : Int) (st : GitState)
    (h : mainRun now [colC6] = Except.ok st) :
    st.commits.length = 27 ∧
    (∀ i : Nat, i < 372 →
      commitsOn st (startDate now + i) = if i % 14 = 0 then 1 else 0) ∧
    (∀ c ∈ st.commits, commitMessage c = "#1/1") ∧
    commitsOn st (startDate now) = 1 ∧
    daysFromSunday (startDate now) = 0 := by
  have hst : runState now [colC6] = st :=
    Except.ok.inj ((mainRun_eq_ok now [colC6]).symm.trans h)
  subst hst
  have hdates : ∀ i : Nat, i < 372 →
      commitsOn (runState now [colC6]) (startDate now + i)
        = if i % 14 = 0 then 1 else 0 := by
    intro i hi
    rw [commitsOn_runState now [colC6] i (by rw [numDays_span]; exact hi),
      streamVal_colC6]
  refine ⟨?_, hdates, ?_, ?_, startDate_weekday now⟩
  · rw [length_runState, numDays_span]
    decide
  · intro c hc
    rcases mem_goTotal _ _ _ _ c hc with h0 | ⟨i, _, _, _, _, h1, h2, h3⟩
    · simp [freshRepo] at h0
    · rw [streamVal_colC6] at h2 h3
      have hidx : c.msgIdx = 1 ∧ c.msgTotal = 1 := by
        by_cases hmod : i % 14 = 0 <;> simp [hmod] at h2 h3 <;> omega
      exact commitMessage_one c hidx.1 hidx.2
  · have h00 := hdates 0 (by norm_num)
    simpa using h00

/-- Witness for C6 (amended) at `now = 0`. -/
theorem claim_c6_single_pixel_witness :
    (runState 0 [colC6]).commits.length = 27 ∧
    commitMessage c6FirstCommit = "#1/1" ∧
    commitsOn (runState 0 [colC6]) (startDate 0) = 1 ∧
    daysFromSunday (startDate 0) = 0 := by
  obtain ⟨h1, _, h3, h4, h5⟩ :=
    claim_c6_single_pixel 0 _ (mainRun_eq_ok 0 [colC6])
  exact ⟨h1, h3 c6FirstCommit (by decide), h4, h5⟩

/-- C7 counterexample: with an empty column sequence (zero-width image) the
run does not fail at all — it returns the fresh repository unchanged (zero
commits) and raises no `InvalidInput` error. -/
theorem claim_c7_counterexample :
    mainRun 0 [] = Except.ok freshRepo ∧
    ¬ isInvalidInput (mainRun 0 []) := by
  have hok : mainRun 0 [] = Except.ok freshRepo := by
    rw [mainRun_eq_ok,
      show runState 0 [] = freshRepo from goTotal_nil_cols freshRepo (startDate 0) _]
  refine ⟨hok, ?_⟩
  rintro ⟨msg, hmsg⟩
  rw [hok] at hmsg
  exact Except.noConfusion hmsg

/-- C7 amended: when the column sequence is empty, each pass of the tiler is
just the inserted zero column, so the intensity stream is constantly zero
and for every `now` the run succeeds, creating no commits; no error is
raised. -/
theorem claim_c7_empty_columns (now : Int) :
    (∀ k, streamVal [] k = 0) ∧
    mainRun now [] = Except.ok freshRepo ∧
    freshRepo.commits.length = 0 :=
  ⟨streamVal_nil,
   by rw [mainRun_eq_ok,
        show runState now [] = freshRepo from
          goTotal_nil_cols freshRepo (startDate now) _],
   rfl⟩

/-- C8: decoding fails with `InvalidInput` when the file cannot be decoded
as an image, when the height is not exactly 7, or when the color model
carries chrominance; on success it yields one column per horizontal pixel,
left-to-right, each the 7 luma values of that pixel column top-to-bottom. -/
theorem claim_c8_decode (m : DynImage) :
    decodeColumns none
      = Except.error (RunError.invalidInput
          "could not open the file as an image") ∧
    (m.height ≠ 7 → decodeColumns (some m)
      = Except.error (RunError.invalidInput
          "expected the image to be seven pixels tall")) ∧
    (m.height = 7 → m.hasColor = true → decodeColumns (some m)
      = Except.error (RunError.invalidInput
          "expected the image to be grayscale")) ∧
    (m.height = 7 → m.hasColor = false →
      decodeColumns (some m) = Except.ok (decodedCols m) ∧
      (decodedCols m).length = m.width ∧
      ∀ x, x < m.width → ∀ y : Fin 7,
        ((decodedCols m).getD x zeroCol) y = m.luma x y.val) := by
  refine ⟨rfl, ?_, ?_, ?_⟩
  · intro hne
    simp [decodeColumns, hne]
  · intro hh hc
    simp [decodeColumns, hh, hc]
  · intro hh hcf
    exact ⟨by simp [decodeColumns, hh, hcf], length_decodedCols m,
      fun x hx y => getD_decodedCols m x hx y⟩

/-- Witness for C8: a 3×5 image is rejected; the 3×7 grayscale `imgW`
decodes, and its column 1 row 2 is its luma value 12. -/
theorem claim_c8_decode_witness :
    decodeColumns (some imgBad)
      = Except.error (RunError.invalidInput
          "expected the image to be seven pixels tall") ∧
    decodeColumns (some imgW) = Except.ok (decodedCols imgW) ∧
    ((decodedCols imgW).getD 1 zeroCol) 2 = 12 :=
  ⟨(claim_c8_decode imgBad).2.1 (by norm_num [imgBad]),
   ((claim_c8_decode imgW).2.2.2 rfl rfl).1,
   by simpa [imgW] using
     ((claim_c8_decode imgW).2.2.2 rfl rfl).2.2 1 (by norm_num [imgW]) 2⟩

/-- C9: when the output directory path already exists, the run fails with
`InvalidInput` (the `fs::create_dir` step) and no repository is initialized
at that path. -/
theorem claim_c9_existing_path (fs : FS) (parent : Option String)
    (repoPath : String) (h : repoPath ∈ fs.dirs) :
    (setupRepo fs parent repoPath).err
      = some (RunError.invalidInput
          "could not create the repository directory: it already exists") ∧
    (setupRepo fs parent repoPath).fs.repos = fs.repos := by
  have hmem : repoPath ∈ (dirSetup fs parent).dirs := by
    cases parent with
    | none => exact h
    | some p => exact mem_dirs_createDirAll fs p repoPath h
  have hrepos : (dirSetup fs parent).repos = fs.repos := by
    cases parent with
    | none => rfl
    | some p => exact repos_createDirAll fs p
  rw [setupRepo, if_pos hmem]
  exact ⟨rfl, hrepos⟩

/-- Witness for C9 on a concrete filesystem where `outdir` exists. -/
theorem claim_c9_existing_path_witness :
    (setupRepo fs0 (some "parentdir") "outdir").err
      = some (RunError.invalidInput
          "could not create the repository directory: it already exists") ∧
    (setupRepo fs0 (some "parentdir") "outdir").fs.repos = fs0.repos :=
  claim_c9_existing_path fs0 (some "parentdir") "outdir" (by simp [fs0])

/-- C10: a grayscale image with an alpha channel (luma-plus-alpha, for which
`has_color` is false) passes validation, and the alpha data is discarded:
the columns hold the luma values alone, so an image differing only in its
alpha channel yields the same columns and the same commit history. -/
theorem claim_c10_alpha_ignored (m : DynImage) (b : Bool)
    (a : Nat → Nat → Nat) (hh : m.height = 7) (hc : m.hasColor = false) :
    decodeColumns (some { m with hasAlpha := b, alpha := a })
      = Except.ok (decodedCols m) ∧
    decodeColumns (some m) = Except.ok (decodedCols m) ∧
    (∀ x, x < m.width → ∀ y : Fin 7,
      ((decodedCols m).getD x zeroCol) y = m.luma x y.val) ∧
    ∀ now, fullRun now (some { m with hasAlpha := b, alpha := a })
      = fullRun now (some m) := by
  have hdec : decodeColumns (some { m with hasAlpha := b, alpha := a })
      = decodeColumns (some m) := rfl
  refine ⟨?_, ?_, fun x hx y => getD_decodedCols m x hx y, fun now => ?_⟩
  · rw [hdec]
    simp [decodeColumns, hh, hc]
  · simp [decodeColumns, hh, hc]
  · rw [fullRun, fullRun, hdec]

/-- Witness for C10: `imgW` with an alpha channel added decodes to the same
columns as `imgW`, and the full run on it is identical. -/
theorem claim_c10_alpha_ignored_witness :
    decodeColumns (some { imgW with hasAlpha := true, alpha := fun _ _ => 5 })
      = Except.ok (decodedCols imgW) ∧
    fullRun 0 (some { imgW with hasAlpha := true, alpha := fun _ _ => 5 })
      = fullRun 0 (some imgW) := by
  obtain ⟨h1, _, _, h4⟩ :=
    claim_c10_alpha_ignored imgW true (fun _ _ => 5) rfl rfl
  exact ⟨h1, h4 0⟩

end Contributron
